import Mathlib

/-!
Verification of the deal static contract-and-effect inference engine
(linter subsystem) against its design specification.

The embedding models, faithfully to the Python source:
  * `deal/linter/_extractors/exceptions.py` (get_exceptions, _exceptions_from_funcs, get_names)
  * `deal/linter/_extractors/contracts.py`  (get_contracts, _get_contracts)
  * `deal/linter/_extractors/pre.py`        (handle_call, format_call_args)
  * `deal/linter/_stub.py`                  (StubFile.add/get/dump/load, StubsManager._get_module_name)
plus, modelled from the spec where the module is not part of the analyzed
sources (common.py, value.py, _contract.py): the pre-order traversal,
dotted-name resolution, literal value extraction, the Token record, the
Category enumeration and the contract-evaluation oracle.

Python dynamic typing is modelled with explicit sum types; exceptions that
escape the lazy token generator are modelled by a stream `List Token × Option PyErr`
(tokens produced before the failure, then the failure, if any).
-/

namespace DealSpec

/-- Source position of a node: `lineno` and `col_offset` in both tree backends. -/
structure Pos where
  line : Nat
  col : Nat
deriving DecidableEq, Repr

/-- Python literal values as they occur in `astroid.Const` nodes and as results of
literal reduction.  A float literal is modelled as the exact decimal it denotes,
`mantissa / 10 ^ exp` (e.g. `0.0` is `floatV 0 1`); only its zero-test and its
decimal rendering are observed by the engine. -/
inductive PyVal where
  | intV (n : Int)
  | floatV (mantissa : Int) (exp : Nat)
  | strV (s : String)
  | boolV (b : Bool)
  | noneV
deriving DecidableEq, Repr

/-- Python `value == 0` on a `Const` payload: true for `0`, `0.0` and `False`
(bool is an int subtype in Python), false for strings and `None`. -/
def pyEqZero : PyVal → Bool
  | .intV n => n == 0
  | .floatV m _ => m == 0
  | .boolV b => !b
  | .strV _ => false
  | .noneV => false

/-- Binary operators; astroid stores the operator as a string, the engine only
distinguishes division. -/
inductive BOp where
  | div
  | add
  | sub
  | mult
deriving DecidableEq, Repr

/-- Unary operators; only unary minus matters for literal reduction. -/
inductive UOp where
  | usub
  | uother
deriving DecidableEq, Repr

/-- Syntax nodes: the fragment of the astroid node vocabulary that the analyzed
extractors inspect (assert, raise, binary op, call, name, attribute, constants,
assignment, expression statement), with an opaque `other` constructor for every
remaining node kind.  Each node carries its source position. -/
inductive Node where
  | assertStmt (p : Pos) (test : Node)
  | raiseStmt (p : Pos) (exc : Option Node)
  | binOp (p : Pos) (op : BOp) (left right : Node)
  | unaryOp (p : Pos) (op : UOp) (operand : Node)
  | const (p : Pos) (value : PyVal)
  | name (p : Pos) (id : String)
  | attr (p : Pos) (obj : Node) (attrName : String)
  | call (p : Pos) (func : Node) (args : List Node) (kwargs : List (String × Node))
  | assign (p : Pos) (value : Node)
  | exprStmt (p : Pos) (value : Node)
  | other (p : Pos) (children : List Node)

/-- The source position carried by a node (`lineno` / `col_offset`). -/
def Node.pos : Node → Pos
  | .assertStmt p _ => p
  | .raiseStmt p _ => p
  | .binOp p _ _ _ => p
  | .unaryOp p _ _ => p
  | .const p _ => p
  | .name p _ => p
  | .attr p _ _ => p
  | .call p _ _ _ => p
  | .assign p _ => p
  | .exprStmt p _ => p
  | .other p _ => p

mutual

/-- Modelled from the spec, section 4.5 (common.py is not among the analyzed
sources): the traversal visits every reachable statement and expression of a
body in pre-order, depth-unbounded within one function body. -/
def preorder : Node → List Node
  | .assertStmt p t => .assertStmt p t :: preorder t
  | .raiseStmt p e => .raiseStmt p e :: preorderOpt e
  | .binOp p o l r => .binOp p o l r :: (preorder l ++ preorder r)
  | .unaryOp p o x => .unaryOp p o x :: preorder x
  | .const p v => [.const p v]
  | .name p i => [.name p i]
  | .attr p o a => .attr p o a :: preorder o
  | .call p f args kws => .call p f args kws :: (preorder f ++ preorderList args ++ preorderKws kws)
  | .assign p v => .assign p v :: preorder v
  | .exprStmt p v => .exprStmt p v :: preorder v
  | .other p cs => .other p cs :: preorderList cs

/-- Pre-order traversal of an optional child node. -/
def preorderOpt : Option Node → List Node
  | Option.none => []
  | some x => preorder x

/-- Pre-order traversal of a list of sibling nodes. -/
def preorderList : List Node → List Node
  | [] => []
  | x :: xs => preorder x ++ preorderList xs

/-- Pre-order traversal of keyword-argument values. -/
def preorderKws : List (String × Node) → List Node
  | [] => []
  | (_, v) :: xs => preorder v ++ preorderKws xs

end

/-- Modelled from the spec, section 4.1 (common.py is not among the analyzed
sources): textual dotted-name resolution — a `Name` is its identifier, an
`Attribute` chain is the dotted path, anything that is not a simple dotted
path resolves to nothing. -/
def getName : Node → Option String
  | .name _ i => some i
  | .attr _ o a => (getName o).map (fun s => s ++ "." ++ a)
  | _ => Option.none

/-- Modelled from the spec, section 4.2 (value.py is not among the analyzed
sources): literal reduction `get_value` — a constant reduces to its payload,
unary minus of a literal number is negated, every other shape in the modelled
node fragment is statically irreducible (the sentinel UNKNOWN is `Option.none`). -/
def getValue : Node → Option PyVal
  | .const _ v => some v
  | .unaryOp _ .usub e =>
      match getValue e with
      | some (.intV n) => some (.intV (-n))
      | some (.floatV m k) => some (.floatV (-m) k)
      | _ => Option.none
  | _ => Option.none

/-- Map a fallible function over a list, stopping at the first failure (the
shape of every early-return loop in the modelled code). -/
def mapMOpt {α β : Type} (f : α → Option β) : List α → Option (List β)
  | [] => some []
  | a :: as =>
      match f a with
      | Option.none => Option.none
      | some b =>
          match mapMOpt f as with
          | Option.none => Option.none
          | some bs => some (b :: bs)

/-- A member of the Python `builtins` module, as observed by the engine: its
attribute name and whether it is a class (`isinstance(value, type)`).  The
table below is the exception-class fragment of `builtins` that is relevant to
the analyzed code paths. -/
structure BuiltinObj where
  bname : String
  isType : Bool
deriving DecidableEq, Repr

/-- The modelled fragment of the `builtins` namespace (all exception classes). -/
def builtinsTable : List BuiltinObj :=
  [⟨"BaseException", true⟩, ⟨"Exception", true⟩, ⟨"ValueError", true⟩,
   ⟨"TypeError", true⟩, ⟨"KeyError", true⟩, ⟨"IndexError", true⟩,
   ⟨"ZeroDivisionError", true⟩, ⟨"AssertionError", true⟩, ⟨"SystemExit", true⟩,
   ⟨"RuntimeError", true⟩, ⟨"OSError", true⟩, ⟨"StopIteration", true⟩,
   ⟨"NotImplementedError", true⟩, ⟨"LookupError", true⟩]

/-- Python `getattr(builtins, name, default-absent)`. -/
def getattrBuiltins (n : String) : Option BuiltinObj :=
  builtinsTable.find? (fun o => o.bname == n)

/-- The `AssertionError` class referenced directly by exceptions.py. -/
def AssertionErrorB : BuiltinObj := ⟨"AssertionError", true⟩

/-- The `ZeroDivisionError` class referenced directly by exceptions.py. -/
def ZeroDivisionErrorB : BuiltinObj := ⟨"ZeroDivisionError", true⟩

/-- The `SystemExit` class referenced directly by exceptions.py. -/
def SystemExitB : BuiltinObj := ⟨"SystemExit", true⟩

/-- A token's `value` field is either a builtin object (an exception class) or a
plain string (an exception name, or a formatted argument list for precondition
findings). -/
inductive TokenValue where
  | obj (o : BuiltinObj)
  | str (s : String)
deriving DecidableEq, Repr

/-- Modelled from the spec, section 3 (common.py is not among the analyzed
sources): the atomic finding `Token value, optional marker, line, col`,
never mutated after creation. -/
structure Token where
  value : TokenValue
  marker : Option String
  line : Nat
  col : Nat
deriving DecidableEq, Repr

/-- Host-language exceptions that can escape the engine in the modelled paths. -/
inductive PyErr where
  | attributeError
  | valueError
  | recursionError
deriving DecidableEq, Repr

/-- Modelled from the spec, sections 3 and 6 (_contract.py is not among the
analyzed sources): the closed contract-category enumeration.  The spec lists
PRE, POST, INV, RAISES, HAS, EXAMPLE, PURE, SAFE, INHERIT; the analyzed
contracts.py additionally supports `deal.ensure`, so ENSURE is included. -/
inductive Category where
  | PRE
  | POST
  | INV
  | RAISES
  | HAS
  | EXAMPLE
  | PURE
  | SAFE
  | INHERIT
  | ENSURE
deriving DecidableEq, Repr, Fintype

/-- The string payload of each category member (the decorator name and the
stub-file key: `"raises"`, `"has"`, ...). -/
def Category.value : Category → String
  | .PRE => "pre"
  | .POST => "post"
  | .INV => "inv"
  | .RAISES => "raises"
  | .HAS => "has"
  | .EXAMPLE => "example"
  | .PURE => "pure"
  | .SAFE => "safe"
  | .INHERIT => "inherit"
  | .ENSURE => "ensure"

/-- contracts.py `ContractInfo`: category name, positional argument expressions
(verbatim, not evaluated), keyword argument expressions, declaration line. -/
structure ContractInfo where
  cname : String
  args : List Node
  kwargs : List (String × Node)
  line : Nat

/-- The slice of an `astroid.FunctionDef` object observed by the engine: its
name, parameter names (pre.py rebuilds them from `func.args.as_string()`),
body and decorator list (`None` when the function is undecorated; otherwise
the `Decorators.nodes` list). -/
structure FunctionDef where
  fname : String
  params : List String
  body : List Node
  decorators : Option (List Node)

/-- A dynamically-typed Python value at the boundaries the engine crosses:
inference guesses (`node.infer()`) and the argument of contracts.py
`get_contracts`.  `listVal` is a plain Python list object — passing one where
a function object is expected is the version-skew bug in exceptions.py. -/
inductive PyDyn where
  | funcDef (f : FunctionDef)
  | listVal (xs : List Node)
  | otherVal

/-- Outcome classes of evaluating an arbitrary Python expression, as far as the
pre.py verdict logic discriminates them: the bool singletons, exact strings,
and everything else. -/
inductive PyRes where
  | boolV (b : Bool)
  | strV (s : String)
  | otherV
deriving DecidableEq, Repr

/-- Result of `Contract.run`: either a `NameError` escaped (a name out of
static reach) or the evaluated expression's value. -/
inductive RunRes where
  | nameError
  | res (v : PyRes)
deriving DecidableEq, Repr

/-- The semantic-backend context of one analysis run.  `infer` models
`astroid` name inference (`Option.none` is a raised `NameInferenceError`);
`lookupAssign` models `Name.lookup` in contracts.py returning the value
expression of the closest prior assignment, if any; `runContract` is the
contract-evaluation oracle — modelled from the spec, section 4.4
(_contract.py is not among the analyzed sources): it binds the callee's
parameter names to call-site literal values and evaluates the validator
expression, whose outcome only the verdict logic of pre.py interprets;
`resolveInherit` is the ancestor-walk oracle of contracts.py
`_resolve_inherit`, keyed by the inherit-decorator's position (it needs
class-hierarchy data outside the modelled node fragment). -/
structure Env where
  infer : String → Option (List PyDyn)
  lookupAssign : String → Option Node
  runContract : List String → ContractInfo → List PyVal → List (String × PyVal) → RunRes
  resolveInherit : Pos → List ContractInfo

/-- contracts.py supported call-shaped contract decorators. -/
def SUPPORTED_CONTRACTS : List String :=
  ["deal.ensure", "deal.example", "deal.has", "deal.post",
   "deal.pre", "deal.pure", "deal.raises", "deal.safe"]

/-- contracts.py supported bare (marker) decorators. -/
def SUPPORTED_MARKERS : List String := ["deal.pure", "deal.safe", "deal.inherit"]

/-- Python `name.split(chr 46)[-1]`: the last dotted component (the suffix
after the last dot, or the whole name when it has no dot). -/
def lastDotted (s : String) : String :=
  String.mk (s.toList.foldl (fun acc c => if c = Char.ofNat 46 then [] else acc ++ [c]) [])

/-- contracts.py `_get_contracts`, one decorator list: an attribute decorator
matching a marker category yields a zero-argument info (inherit additionally
resolves ancestors); a call decorator whose callee is a supported dotted name
yields an info carrying its arguments verbatim, with `deal.chain` flattened
recursively; a bare `Name` decorator is resolved through the closest prior
assignment and extraction re-runs on the assigned expression — the source
recurses unboundedly there, so the model spends one unit of `fuel` per
substitution and answers `Option.none` when the budget is exhausted
(the source would recurse without bound on such chains). -/
def getContractsAux (env : Env) : Nat → List Node → Option (List ContractInfo)
  | _, [] => some []
  | fuel, contract :: rest => do
      let head ←
        match contract with
        | .attr p o a =>
            let nm := (getName (.attr p o a)).getD ""
            if nm ∈ SUPPORTED_MARKERS then
              some (⟨lastDotted nm, [], [], p.line⟩ ::
                (if nm = "deal.inherit" then env.resolveInherit p else []))
            else some []
        | .call p f args kws =>
            match f with
            | .attr fp fo fa =>
                let nm := (getName (.attr fp fo fa)).getD ""
                do
                  let chainPart ←
                    if nm = "deal.chain" then getContractsAux env fuel args else some []
                  if nm ∈ SUPPORTED_CONTRACTS then
                    some (chainPart ++ [⟨lastDotted nm, args, kws, p.line⟩])
                  else some chainPart
            | _ => some []
        | .name _ id =>
            match env.lookupAssign id with
            | Option.none => some []
            | some e =>
                match fuel with
                | 0 => Option.none
                | fuel' + 1 => getContractsAux env fuel' [e]
        | _ => some []
      let tail ← getContractsAux env fuel rest
      some (head ++ tail)
termination_by fuel l => (fuel, sizeOf l)
decreasing_by
  all_goals simp_wf
  all_goals first
    | exact Prod.Lex.left _ _ (by omega)
    | exact Prod.Lex.right _ (by simp)
    | exact Prod.Lex.right _ (by omega)

/-- contracts.py `get_contracts` on a dynamically-typed argument.  On an
`astroid.FunctionDef` it walks the decorator list (nothing when undecorated);
on any other object — in particular the plain list that exceptions.py passes —
reading the `decorators` attribute raises `AttributeError`.  A `Name`
substitution chain that would make the source recurse without bound surfaces
as `RecursionError`. -/
def getContractsDyn (env : Env) (fuel : Nat) : PyDyn → Except PyErr (List ContractInfo)
  | .funcDef f =>
      match f.decorators with
      | Option.none => .ok []
      | some decs =>
          match getContractsAux env fuel decs with
          | some cs => .ok cs
          | Option.none => .error .recursionError
  | .listVal _ => .error .attributeError
  | .otherVal => .error .attributeError

mutual

/-- exceptions.py `get_names`: the bare-`Name` callee of a call expression,
recursing through call arguments, keyword values and assignment right-hand
sides.  Only `Name` nodes are produced. -/
def getNames : Node → List Node
  | .assign _ v => getNames v
  | .call _ f args kws =>
      (match f with
       | .name fp fi => [Node.name fp fi]
       | _ => []) ++ getNamesList args ++ getNamesKws kws
  | _ => []

/-- `get_names` over a list of argument nodes. -/
def getNamesList : List Node → List Node
  | [] => []
  | x :: xs => getNames x ++ getNamesList xs

/-- `get_names` over keyword-argument values. -/
def getNamesKws : List (String × Node) → List Node
  | [] => []
  | (_, v) :: xs => getNames v ++ getNamesKws xs

end

/-- Python `name[0].islower()` (ASCII fragment); the caller guarantees the
string is non-empty. -/
def firstCharLower (s : String) : Bool :=
  match s.toList with
  | c :: _ => c.isLower
  | [] => false

/-- The raise-statement name resolution of exceptions.py (lines 25-34): the
exception's dotted name if it has one; otherwise, for a constructor call whose
callee name does not start lowercase, the callee's name.  Returns the resolved
name together with the `col_offset` of the raised expression. -/
def raiseNameOf (exc : Option Node) : Option (String × Nat) :=
  match exc with
  | Option.none => Option.none
  | some e =>
      let n0 := (getName e).getD ""
      if n0 ≠ "" then some (n0, (Node.pos e).col)
      else
        match e with
        | .call _ f _ _ =>
            let n1 := (getName f).getD ""
            if n1 = "" then Option.none
            else if firstCharLower n1 then Option.none
            else some (n1, (Node.pos e).col)
        | _ => Option.none

/-- Python `getattr(builtins, name, name)`: the builtin object when the name is
an attribute of `builtins`, otherwise the name string itself. -/
def tokenValueForName (n : String) : TokenValue :=
  match getattrBuiltins n with
  | some o => .obj o
  | Option.none => .str n

/-- The per-node local checks of `get_exceptions` (assert, explicit raise,
division by a zero constant, process exit), returning the token the node
yields, if any, and whether the loop body `continue`s past the dive step. -/
def localStep (x : Node) : Option Token × Bool :=
  match x with
  | .assertStmt p _ =>
      (some ⟨.obj AssertionErrorB, Option.none, p.line, p.col⟩, true)
  | .raiseStmt p exc =>
      (match raiseNameOf exc with
       | some (n, c) => some ⟨tokenValueForName n, Option.none, p.line, c⟩
       | Option.none => Option.none, true)
  | .binOp p op _ r =>
      match op, r with
      | .div, .const cp v =>
          if pyEqZero v then
            (some ⟨.obj ZeroDivisionErrorB, Option.none, p.line, cp.col⟩, true)
          else (Option.none, false)
      | _, _ => (Option.none, false)
  | .call p f _ _ =>
      let nm := (getName f).getD ""
      if nm = "exit" then (some ⟨.obj SystemExitB, Option.none, p.line, p.col⟩, true)
      else
        match f with
        | .attr _ _ _ =>
            if nm = "sys.exit" then
              (some ⟨.obj SystemExitB, Option.none, p.line, p.col⟩, true)
            else (Option.none, false)
        | _ => (Option.none, false)
  | _ => (Option.none, false)

/-- A lazily produced token sequence, as observed by a consumer: the tokens
yielded before the generator either finishes (`Option.none`) or lets a
host-language exception escape. -/
abbrev TStream := List Token × Option PyErr

/-- Concatenation of two lazy streams: the second runs only if the first
finished normally. -/
def TStream.seqs : TStream → TStream → TStream
  | (ts, Option.none), (ts2, e2) => (ts ++ ts2, e2)
  | (ts, some e), _ => (ts, some e)

/-- `get_exceptions` with `dive=False`: only the local per-node checks run on
the pre-order node sequence; no callee is followed, and no exception can
escape. -/
def getExcListND : List Node → List Token
  | [] => []
  | x :: xs =>
      match localStep x with
      | (some t, _) => t :: getExcListND xs
      | (Option.none, _) => getExcListND xs

/-- exceptions.py `_exceptions_from_funcs`, one inference guess: a guessed
`FunctionDef`'s body is analyzed with `dive=False` and its tokens re-attributed
to the call site's name node; then, if the callee is decorated, the source
passes the raw decorator list to `get_contracts` — which expects a function
object, so `AttributeError` escapes (were a contract list ever returned, the
`for category, args in ...` unpacking of a 4-field `ContractInfo` would raise
`ValueError` instead). -/
def effGuess (env : Env) (fuel : Nat) (np : Pos) : PyDyn → TStream
  | .funcDef f =>
      let bodyToks := (getExcListND (preorderList f.body)).map
        (fun t => ⟨t.value, Option.none, np.line, np.col⟩)
      match f.decorators with
      | Option.none => (bodyToks, Option.none)
      | some decs =>
          match getContractsDyn env fuel (.listVal decs) with
          | .error e => (bodyToks, some e)
          | .ok cs => if cs.isEmpty then (bodyToks, Option.none) else (bodyToks, some .valueError)
  | _ => ([], Option.none)

/-- `_exceptions_from_funcs` over the inference guesses of one name. -/
def effGuesses (env : Env) (fuel : Nat) (np : Pos) : List PyDyn → TStream
  | [] => ([], Option.none)
  | g :: gs => TStream.seqs (effGuess env fuel np g) (effGuesses env fuel np gs)

/-- `_exceptions_from_funcs`, one name node: inference failure
(`NameInferenceError`) contributes nothing; otherwise every guess is followed. -/
def effName (env : Env) (fuel : Nat) : Node → TStream
  | .name p id =>
      (match env.infer id with
       | Option.none => ([], Option.none)
       | some gs => effGuesses env fuel p gs)
  | _ => ([], Option.none)

/-- `_exceptions_from_funcs` over all names of one expression. -/
def effNames (env : Env) (fuel : Nat) : List Node → TStream
  | [] => ([], Option.none)
  | n :: ns => TStream.seqs (effName env fuel n) (effNames env fuel ns)

/-- exceptions.py `_exceptions_from_funcs`. -/
def exceptionsFromFuncs (env : Env) (fuel : Nat) (expr : Node) : TStream :=
  effNames env fuel (getNames expr)

/-- `get_exceptions` with `dive=True` over the pre-order node sequence: each
node runs the local checks; when none of them `continue`s, the dive step
follows the node's resolvable callees. -/
def getExcListD (env : Env) (fuel : Nat) : List Node → TStream
  | [] => ([], Option.none)
  | x :: xs =>
      match localStep x with
      | (some t, _) => TStream.seqs ([t], Option.none) (getExcListD env fuel xs)
      | (Option.none, true) => getExcListD env fuel xs
      | (Option.none, false) =>
          TStream.seqs (exceptionsFromFuncs env fuel x) (getExcListD env fuel xs)

/-- The stub knowledge base content: function qualified name → category key
(`"raises"` / `"has"`) → list of string labels.  Python dictionaries are
modelled as insertion-ordered association lists. -/
abbrev Values := List String
abbrev FuncStub := List (String × Values)
abbrev Content := List (String × FuncStub)

/-- A session's `StubsManager`, as far as the engine could observe it: the
resolved module-name → stub-content mapping (the session cache backed by
root-directory probing). -/
structure StubsManagerM where
  modules : List (String × Content)

/-- exceptions.py `get_exceptions(body, *, dive=True, stubs=None)`.  The
`stubs` parameter is accepted — mirroring the source signature — and, exactly
as in the source body, never read. -/
def getExceptions (env : Env) (fuel : Nat) (body : List Node)
    (dive : Bool) (stubs : Option StubsManagerM) : TStream :=
  if dive then getExcListD env fuel (preorderList body)
  else (getExcListND (preorderList body), Option.none)

/-- The apostrophe character used by Python `repr` of strings. -/
def sq : String := String.mk [Char.ofNat 39]

/-- Decimal rendering of the float `m / 10 ^ k` (Python `repr` of a float
literal given in normalized decimal form; `repr(0.0)` is the two-character
digits-dot-digits form rendered from `floatV 0 1`). -/
def floatRepr (m : Int) (k : Nat) : String :=
  let sign := if m < 0 then "-" else ""
  let a := m.natAbs
  if k = 0 then sign ++ toString a ++ ".0"
  else
    let ip := a / 10 ^ k
    let fp := a % 10 ^ k
    let fs := toString fp
    let pad := String.mk (List.replicate (k - fs.length) (Char.ofNat 48))
    sign ++ toString ip ++ "." ++ pad ++ fs

/-- Python `repr` of a literal value (string escaping is not modelled: the
engine only ever formats the values with which the claims are concerned). -/
def pyRepr : PyVal → String
  | .intV n => toString n
  | .floatV m k => floatRepr m k
  | .strV s => sq ++ s ++ sq
  | .boolV b => if b then "True" else "False"
  | .noneV => "None"

/-- pre.py `format_call_args`: positional values by `repr`, keyword items
sorted by name and rendered `name=repr(value)`, joined with a comma-space
separator. -/
def formatCallArgs (args : List PyVal) (kwargs : List (String × PyVal)) : String :=
  let sep := ", "
  let argsS := sep.intercalate (args.map pyRepr)
  let items := kwargs.insertionSort (fun a b => a.1 ≤ b.1)
  let kwargsS := sep.intercalate (items.map (fun kv => kv.1 ++ "=" ++ pyRepr kv.2))
  if args ≠ [] ∧ kwargs ≠ [] then argsS ++ sep ++ kwargsS
  else argsS ++ kwargsS

/-- Modelled from the spec, section 4.1 (common.py is not among the analyzed
sources): best-effort inference of a callee expression's definitions — the
guesses for the expression's dotted name, and nothing when inference fails. -/
def inferNode (env : Env) (n : Node) : List PyDyn :=
  match getName n with
  | some s => (env.infer s).getD []
  | Option.none => []

/-- The verdict loop of pre.py `handle_call` over one callee's contract list:
for each `pre` contract, evaluate it on the call-site literals; a `NameError`
is skipped silently; a result that is the bool `False` or any value of exact
type `str` yields one violation token carrying the formatted argument list,
with the string as marker when it is non-empty (`marker=result or None`). -/
def hcContracts (env : Env) (f : FunctionDef) (pos : Pos)
    (argVals : List PyVal) (kwVals : List (String × PyVal)) :
    List ContractInfo → List Token
  | [] => []
  | c :: cs =>
      (if c.cname = "pre" then
        match env.runContract f.params c argVals kwVals with
        | .nameError => []
        | .res (.boolV false) =>
            [⟨.str (formatCallArgs argVals kwVals), Option.none, pos.line, pos.col⟩]
        | .res (.strV s) =>
            [⟨.str (formatCallArgs argVals kwVals),
              (if s = "" then Option.none else some s), pos.line, pos.col⟩]
        | .res (.boolV true) => []
        | .res .otherV => []
       else []) ++ hcContracts env f pos argVals kwVals cs

/-- pre.py `handle_call` over the inference guesses of the callee: guesses
that are not function definitions are skipped; for each function definition
its contracts are extracted (here `get_contracts` receives the function
object, the correct argument) and the verdict loop runs. -/
def hcFuncs (env : Env) (fuel : Nat) (pos : Pos)
    (argVals : List PyVal) (kwVals : List (String × PyVal)) : List PyDyn → TStream
  | [] => ([], Option.none)
  | .funcDef f :: gs =>
      (match getContractsDyn env fuel (.funcDef f) with
       | .error e => ([], some e)
       | .ok cs =>
           TStream.seqs (hcContracts env f pos argVals kwVals cs, Option.none)
             (hcFuncs env fuel pos argVals kwVals gs))
  | _ :: gs => hcFuncs env fuel pos argVals kwVals gs

/-- pre.py `handle_call`: on a call expression whose positional and keyword
arguments are all statically reducible, infer the callee and check its `pre`
contracts; a single irreducible argument makes the handler contribute
nothing. -/
def handleCall (env : Env) (fuel : Nat) : Node → TStream
  | .call pos fn args kws =>
      (match mapMOpt getValue args with
       | Option.none => ([], Option.none)
       | some argVals =>
           match mapMOpt (fun kv => (getValue kv.2).map (fun v => (kv.1, v))) kws with
           | Option.none => ([], Option.none)
           | some kwVals => hcFuncs env fuel pos argVals kwVals (inferNode env fn))
  | _ => ([], Option.none)

/-- Python `dict.get`: the value at the first (with well-formed dictionaries,
only) occurrence of a key. -/
def alGet? {α : Type} : List (String × α) → String → Option α
  | [], _ => Option.none
  | (k, v) :: rest, key => if k = key then some v else alGet? rest key

/-- Python `dict.__setitem__` as produced by `setdefault`-then-mutate: replace
the value at an existing key in place, or append a new key at the end. -/
def alSet {α : Type} : List (String × α) → String → α → List (String × α)
  | [], key, v => [(key, v)]
  | (k, w) :: rest, key, v =>
      if k = key then (k, v) :: rest else (k, w) :: alSet rest key v

/-- Python `list.sort()` on strings: the lexicographically sorted permutation
(the sorted order is unique, so any stable sort models it). -/
def sortStrings (l : List String) : List String := l.insertionSort (· ≤ ·)

/-- _stub.py `StubFile.add`: reject any category other than RAISES and HAS;
otherwise `setdefault` down to the backing list and, unless the value is
already present, append it and re-sort the list. -/
def StubFile.add (content : Content) (func : String) (contract : Category)
    (value : String) : Except String Content :=
  if contract ≠ Category.RAISES ∧ contract ≠ Category.HAS then
    .error "unsupported contract"
  else
    let contracts := (alGet? content func).getD []
    let values := (alGet? contracts contract.value).getD []
    if value ∈ values then .ok content
    else .ok (alSet content func
      (alSet contracts contract.value (sortStrings (values ++ [value]))))

/-- _stub.py `StubFile.get`: reject any category other than RAISES and HAS;
otherwise the recorded values as a frozen set, empty when the function or the
category is unrecorded. -/
def StubFile.get (content : Content) (func : String) (contract : Category) :
    Except String (Finset String) :=
  if contract ≠ Category.RAISES ∧ contract ≠ Category.HAS then
    .error "unsupported contract"
  else
    .ok ((alGet? ((alGet? content func).getD []) contract.value).getD []).toFinset

/-- The backing list stored for one function and category. -/
def valuesAt (content : Content) (func : String) (contract : Category) : Values :=
  (alGet? ((alGet? content func).getD []) contract.value).getD []

/-- The JSON value tree handed to the serialization library.  The library's
byte rendering (stable two-space indentation) is a deterministic, injective
function of this tree, so the tree is the modelled unit of on-disk content. -/
inductive Json where
  | str (s : String)
  | arr (xs : List Json)
  | obj (fields : List (String × Json))

/-- The keys of an association list, in `sort_keys=True` order. -/
def sortedKeysOf {α : Type} (l : List (String × α)) : List String :=
  sortStrings (l.map Prod.fst)

/-- `json.dump(..., sort_keys=True)` of one function's category mapping. -/
def encodeInner (d : FuncStub) : Json :=
  .obj ((sortedKeysOf d).filterMap
    (fun k => (alGet? d k).map (fun vs => (k, Json.arr (vs.map .str)))))

/-- `json.dump(..., sort_keys=True)` of a stub file's content. -/
def encodeContent (c : Content) : Json :=
  .obj ((sortedKeysOf c).filterMap
    (fun k => (alGet? c k).map (fun d => (k, encodeInner d))))

/-- _stub.py `StubFile.dump`: a no-op when the content is empty (no file is
created), otherwise the file receives the deterministic serialization of the
content. -/
def StubFile.dump (c : Content) : Option Json :=
  if c = [] then Option.none else some (encodeContent c)

/-- `json.load` of a stub value array. -/
def decodeValues : Json → Option Values
  | .arr xs => mapMOpt (fun j => match j with | .str s => some s | _ => Option.none) xs
  | _ => Option.none

/-- `json.load` of one function's category mapping. -/
def decodeInner : Json → Option FuncStub
  | .obj fs => mapMOpt (fun kv => (decodeValues kv.2).map (fun d => (kv.1, d))) fs
  | _ => Option.none

/-- _stub.py `StubFile.load`: parse the file and take the result as the
content (the parsed dictionaries come back in the file's key order). -/
def StubFile.load : Json → Option Content
  | .obj fs => mapMOpt (fun kv => (decodeInner kv.2).map (fun d => (kv.1, d))) fs
  | _ => Option.none

/-- A filesystem view for module-name derivation: the set of directories
(absolute paths, as component lists) that contain a package marker
(an `__init__ "dot" py` entry). -/
abbrev MarkedDirs := List (List String)

/-- The loop of `_get_module_name` over `path.parents`: starting from the
file's directory, drop the innermost component while the directory contains a
package marker; the first marker-free ancestor is the anchor.  `Option.none`
is the source's unreachable `RuntimeError` (markers all the way to the
filesystem root). -/
def findAnchor (marked : MarkedDirs) (ds : List String) : Option (List String) :=
  if ds ∈ marked then
    if ds = [] then Option.none
    else findAnchor marked ds.dropLast
  else some ds
termination_by ds.length
decreasing_by
  simp_wf
  rename_i hne
  have hp : 0 < ds.length := List.length_pos.mpr hne
  simp [List.length_dropLast]
  omega

/-- _stub.py `StubsManager._get_module_name` on the resolved path
`dirs / (stem ++ source-suffix)`: the bare stem when the file's directory has
no package marker, otherwise the dotted relative path from the first
marker-free ancestor. -/
def getModuleName (marked : MarkedDirs) (dirs : List String) (stem : String) :
    Option String :=
  if dirs ∈ marked then
    match findAnchor marked dirs with
    | some anchor => some (String.intercalate "." (dirs.drop anchor.length ++ [stem]))
    | Option.none => Option.none
  else some stem

/-- The token-value normalization of _stub.py `generate_stub` (lines 169-172):
a class is replaced by its `__name__`, then `str()` is applied — the identity
on strings (for a non-class builtin object, `str` yields its display form). -/
def generateStubValue : TokenValue → String
  | .obj o => if o.isType then o.bname else "<built-in " ++ o.bname ++ ">"
  | .str s => s

/-- Well-formed stub content: the outer and inner key lists are duplicate-free,
as Python dictionaries guarantee. -/
def WFContent (c : Content) : Prop :=
  (c.map Prod.fst).Nodup ∧ ∀ p ∈ c, (p.2.map Prod.fst).Nodup

instance (c : Content) : Decidable (WFContent c) := by
  unfold WFContent; infer_instance

/-- Python `==` on one function's category mapping: the same lookups on both
key sets (hence on every key). -/
def innerEquiv (d₁ d₂ : FuncStub) : Prop :=
  (∀ k ∈ d₁.map Prod.fst, alGet? d₁ k = alGet? d₂ k) ∧
  (∀ k ∈ d₂.map Prod.fst, alGet? d₁ k = alGet? d₂ k)

instance (d₁ d₂ : FuncStub) : Decidable (innerEquiv d₁ d₂) := by
  unfold innerEquiv; infer_instance

/-- Lifted inner equivalence on optional lookup results. -/
def optInnerEquiv : Option FuncStub → Option FuncStub → Prop
  | some d₁, some d₂ => innerEquiv d₁ d₂
  | Option.none, Option.none => True
  | _, _ => False

instance (o₁ o₂ : Option FuncStub) : Decidable (optInnerEquiv o₁ o₂) := by
  unfold optInnerEquiv
  match o₁, o₂ with
  | some _, some _ => infer_instance
  | Option.none, Option.none => infer_instance
  | some _, Option.none => infer_instance
  | Option.none, some _ => infer_instance

/-- Python `==` on stub content dictionaries (the repository's own tests
compare loaded and stored content with `==`): equal key sets and equivalent
values under every key. -/
def contentEquiv (c₁ c₂ : Content) : Prop :=
  (∀ f ∈ c₁.map Prod.fst, optInnerEquiv (alGet? c₁ f) (alGet? c₂ f)) ∧
  (∀ f ∈ c₂.map Prod.fst, optInnerEquiv (alGet? c₁ f) (alGet? c₂ f))

instance (c₁ c₂ : Content) : Decidable (contentEquiv c₁ c₂) := by
  unfold contentEquiv; infer_instance

/-- The key-sorted normal form of one function's category mapping, as
`json.load` reads back what `json.dump(..., sort_keys=True)` wrote. -/
def canonInner (d : FuncStub) : FuncStub :=
  (sortedKeysOf d).filterMap (fun k => (alGet? d k).map (fun vs => (k, vs)))

/-- The key-sorted normal form of stub content after a dump/load round trip. -/
def canonContent (c : Content) : Content :=
  (sortedKeysOf c).filterMap (fun k => (alGet? c k).map (fun d => (k, canonInner d)))

/-- Scenario for the effect-inference claims: `c` raises `ValueError`
directly. -/
def cDef : FunctionDef :=
  ⟨"c", [], [.raiseStmt ⟨1, 2⟩ (some (.name ⟨1, 8⟩ "ValueError"))], Option.none⟩

/-- The decorator list of `b`: a single `deal.raises(KeyError)`. -/
def bDecorators : List Node :=
  [.call ⟨2, 1⟩ (.attr ⟨2, 1⟩ (.name ⟨2, 1⟩ "deal") "raises") [.name ⟨2, 13⟩ "KeyError"] []]

/-- `b` calls `c` and declares `deal.raises(KeyError)`. -/
def bDef : FunctionDef :=
  ⟨"b", [], [.exprStmt ⟨3, 4⟩ (.call ⟨3, 4⟩ (.name ⟨3, 4⟩ "c") [] [])], some bDecorators⟩

/-- `b` without any decorator, same body. -/
def bPlain : FunctionDef :=
  ⟨"b", [], [.exprStmt ⟨3, 4⟩ (.call ⟨3, 4⟩ (.name ⟨3, 4⟩ "c") [] [])], Option.none⟩

/-- The body of `a`: a single call to `b`. -/
def aBody : List Node :=
  [.exprStmt ⟨10, 4⟩ (.call ⟨10, 4⟩ (.name ⟨10, 4⟩ "b") [] [])]

/-- Semantic context in which `b` and `c` resolve to their definitions. -/
def envABC : Env where
  infer s := if s = "b" then some [.funcDef bDef]
             else if s = "c" then some [.funcDef cDef] else Option.none
  lookupAssign _ := Option.none
  runContract _ _ _ _ := .res .otherV
  resolveInherit _ := []

/-- The same context with the undecorated variant of `b`. -/
def envABCPlain : Env where
  infer s := if s = "b" then some [.funcDef bPlain]
             else if s = "c" then some [.funcDef cDef] else Option.none
  lookupAssign _ := Option.none
  runContract _ _ _ _ := .res .otherV
  resolveInherit _ := []

/-- A context in which no name resolves (every inference raises
`NameInferenceError`). -/
def envNoInfer : Env where
  infer _ := Option.none
  lookupAssign _ := Option.none
  runContract _ _ _ _ := .res .otherV
  resolveInherit _ := []

/-- A body consisting of one call to the unresolvable `qux`. -/
def quxBody : List Node :=
  [.exprStmt ⟨1, 0⟩ (.call ⟨1, 0⟩ (.name ⟨1, 0⟩ "qux") [] [])]

/-- Stub content recording that `qux` raises `ValueError`. -/
def quxStubContent : Content := [("qux", [("raises", ["ValueError"])])]

/-- A stubs manager whose store records `qux`. -/
def quxStubs : StubsManagerM := ⟨[("mod", quxStubContent)]⟩

/-- The decorator list of `divide`: a single `deal.pre(<validator>)`. -/
def preDecorators : List Node :=
  [.call ⟨1, 1⟩ (.attr ⟨1, 1⟩ (.name ⟨1, 1⟩ "deal") "pre") [.other ⟨1, 9⟩ []] []]

/-- `divide(a, b)` declaring one precondition. -/
def divideDef : FunctionDef := ⟨"divide", ["a", "b"], [], some preDecorators⟩

/-- A context in which `divide` resolves and every contract evaluation
produces the empty string. -/
def envEmptyStr : Env where
  infer s := if s = "divide" then some [.funcDef divideDef] else Option.none
  lookupAssign _ := Option.none
  runContract _ _ _ _ := .res (.strV "")
  resolveInherit _ := []

/-- A context in which `divide` resolves and every contract evaluation
produces the bool `False`. -/
def envBoolFalse : Env where
  infer s := if s = "divide" then some [.funcDef divideDef] else Option.none
  lookupAssign _ := Option.none
  runContract _ _ _ _ := .res (.boolV false)
  resolveInherit _ := []

/-- The call site `divide(10, 0)` with literal arguments. -/
def divideCall : Node :=
  .call ⟨5, 0⟩ (.name ⟨5, 0⟩ "divide") [.const ⟨5, 7⟩ (.intV 10), .const ⟨5, 11⟩ (.intV 0)] []

/-- The assigned expression `deal.pre(<validator>)` behind the alias chain. -/
def dealPreCall : Node :=
  .call ⟨2, 4⟩ (.attr ⟨2, 4⟩ (.name ⟨2, 4⟩ "deal") "pre") [.other ⟨2, 13⟩ []] []

/-- A context with the assignment chain `b = a` and `a = deal.pre(...)`. -/
def envChain : Env where
  infer _ := Option.none
  lookupAssign s := if s = "b" then some (.name ⟨1, 4⟩ "a")
                    else if s = "a" then some dealPreCall else Option.none
  runContract _ _ _ _ := .res .otherV
  resolveInherit _ := []

/-- Two division statements: one whose divisor is the statically reducible
non-literal `-0` (line 1), one whose literal-zero divisor sits on line 3 while
the division expression starts on line 2. -/
def divBody : List Node :=
  [.exprStmt ⟨1, 0⟩ (.binOp ⟨1, 0⟩ .div (.name ⟨1, 0⟩ "x")
     (.unaryOp ⟨1, 4⟩ .usub (.const ⟨1, 5⟩ (.intV 0)))),
   .exprStmt ⟨2, 0⟩ (.binOp ⟨2, 0⟩ .div (.name ⟨2, 0⟩ "y") (.const ⟨3, 4⟩ (.intV 0)))]

/-- Stub content whose backing list was loaded unsorted from disk. -/
def unsortedContent : Content := [("f", [("raises", ["b", "a"])])]

/-- Round-trip example content (the repository test's own example). -/
def rtContent : Content := [("fname", [("raises", ["TypeError"])])]

/-- Two-key content in one insertion order. -/
def detContentA : Content :=
  [("alpha", [("raises", ["E1"])]), ("beta", [("has", ["network"])])]

/-- The same dictionary value in the opposite insertion order. -/
def detContentB : Content :=
  [("beta", [("has", ["network"])]), ("alpha", [("raises", ["E1"])])]

/-- A body with two raise statements: a non-builtin name and a builtin name. -/
def raiseBody : List Node :=
  [.raiseStmt ⟨1, 0⟩ (some (.name ⟨1, 6⟩ "MyCustomError")),
   .raiseStmt ⟨2, 0⟩ (some (.name ⟨2, 6⟩ "ValueError"))]

/-- A one-statement body dividing a literal by the literal zero. -/
def divWitnessBody : List Node :=
  [.exprStmt ⟨1, 0⟩ (.binOp ⟨1, 0⟩ .div (.const ⟨1, 0⟩ (.intV 7)) (.const ⟨1, 4⟩ (.intV 0)))]

section Lemmas

/-- A token in the left stream survives sequencing. -/
theorem mem_seqs_left {s t : TStream} {x : Token} (hx : x ∈ s.1) :
    x ∈ (TStream.seqs s t).1 := by
  rcases s with ⟨ts, e⟩
  cases e <;> simp [TStream.seqs] at hx ⊢ <;> simp [hx]

/-- A token in the right stream survives sequencing when the left one finished
normally. -/
theorem mem_seqs_right {s t : TStream} {x : Token} (hs : s.2 = Option.none)
    (hx : x ∈ t.1) : x ∈ (TStream.seqs s t).1 := by
  rcases s with ⟨ts, e⟩
  cases e with
  | none => simp [TStream.seqs, hx]
  | some e => simp at hs

/-- If the sequencing of two streams finished normally, so did each part. -/
theorem seqs_eq_none {s t : TStream} (h : (TStream.seqs s t).2 = Option.none) :
    s.2 = Option.none ∧ t.2 = Option.none := by
  rcases s with ⟨ts, e⟩
  cases e with
  | none => exact ⟨rfl, by simpa [TStream.seqs] using h⟩
  | some e => simp [TStream.seqs] at h

/-- A node of the traversed sequence whose local checks yield a token
contributes that token to the no-dive analysis. -/
theorem mem_getExcListND_of_localStep {ns : List Node} {x : Node} {t : Token}
    (hx : x ∈ ns) (ht : (localStep x).1 = some t) : t ∈ getExcListND ns := by
  induction ns with
  | nil => cases hx
  | cons y ys ih =>
      rcases List.mem_cons.mp hx with rfl | hmem
      · rcases h : localStep x with ⟨o, b⟩
        rw [h] at ht; subst ht
        simp [getExcListND, h]
      · rcases h : localStep y with ⟨o, b⟩
        cases o <;> simp [getExcListND, h, ih hmem]

/-- A node of the traversed sequence whose local checks yield a token
contributes that token to the diving analysis, provided the analysis finished
without a host-language exception. -/
theorem mem_getExcListD_of_localStep {env : Env} {fuel : Nat} {ns : List Node}
    {x : Node} {t : Token} (hx : x ∈ ns) (ht : (localStep x).1 = some t)
    (hc : (getExcListD env fuel ns).2 = Option.none) :
    t ∈ (getExcListD env fuel ns).1 := by
  induction ns with
  | nil => cases hx
  | cons y ys ih =>
      rcases List.mem_cons.mp hx with rfl | hmem
      · rcases h : localStep x with ⟨o, b⟩
        rw [h] at ht; subst ht
        simp only [getExcListD, h]
        exact mem_seqs_left (by simp)
      · rcases h : localStep y with ⟨o, b⟩
        simp only [getExcListD, h] at hc ⊢
        cases o with
        | some t' =>
            have hparts := seqs_eq_none hc
            exact mem_seqs_right rfl (ih hmem hparts.2)
        | none =>
            cases b with
            | true => exact ih hmem hc
            | false =>
                have hparts := seqs_eq_none hc
                exact mem_seqs_right hparts.1 (ih hmem hparts.2)

/-- Looking up the key just written returns the written value. -/
theorem alGet?_alSet_self {α : Type} (l : List (String × α)) (k : String) (x : α) :
    alGet? (alSet l k x) k = some x := by
  induction l with
  | nil => simp [alSet, alGet?]
  | cons p rest ih =>
      rcases p with ⟨pk, pv⟩
      by_cases h : pk = k
      · simp [alSet, h, alGet?]
      · simp [alSet, h, alGet?, ih]

/-- Writing one key leaves every other key's lookup unchanged. -/
theorem alGet?_alSet_ne {α : Type} (l : List (String × α)) (k k' : String) (x : α)
    (h : k' ≠ k) : alGet? (alSet l k x) k' = alGet? l k' := by
  induction l with
  | nil => simp [alSet, alGet?, Ne.symm h]
  | cons p rest ih =>
      rcases p with ⟨pk, pv⟩
      by_cases hpk : pk = k
      · subst hpk
        simp [alSet, alGet?, Ne.symm h]
      · simp [alSet, hpk, alGet?, ih]

/-- A lookup succeeds exactly on the recorded keys. -/
theorem alGet?_isSome_iff {α : Type} (l : List (String × α)) (k : String) :
    (alGet? l k).isSome ↔ k ∈ l.map Prod.fst := by
  induction l with
  | nil => simp [alGet?]
  | cons p rest ih =>
      rcases p with ⟨pk, pv⟩
      by_cases h : pk = k
      · subst h; simp [alGet?]
      · simp [alGet?, h, ih, Ne.symm h]

/-- A missing key looks up to nothing. -/
theorem alGet?_eq_none_of_not_mem {α : Type} {l : List (String × α)} {k : String}
    (h : k ∉ l.map Prod.fst) : alGet? l k = Option.none := by
  rcases he : alGet? l k with _ | v
  · rfl
  · exact absurd ((alGet?_isSome_iff l k).mp (by simp [he])) h

/-- A successful lookup comes from a recorded pair. -/
theorem alGet?_some_mem {α : Type} {l : List (String × α)} {k : String} {v : α}
    (h : alGet? l k = some v) : (k, v) ∈ l := by
  induction l with
  | nil => simp [alGet?] at h
  | cons p rest ih =>
      rcases p with ⟨pk, pv⟩
      by_cases hk : pk = k
      · subst hk
        have hv : pv = v := by simpa [alGet?] using h
        subst hv
        exact List.mem_cons_self _ _
      · simp only [alGet?, if_neg hk] at h
        exact List.mem_cons_of_mem _ (ih h)

/-- The category enumeration's string payload is injective. -/
theorem Category.value_inj : ∀ a b : Category, a.value = b.value → a = b := by decide

/-- The backing list unfolds to the raw double lookup of `StubFile.add`. -/
theorem valuesAt_def (c : Content) (f : String) (cat : Category) :
    valuesAt c f cat = (alGet? ((alGet? c f).getD []) cat.value).getD [] := rfl

/-- `findAnchor` stops at the first marker-free ancestor: if every strictly
longer prefix is marked and the `k`-prefix is not, the walk answers the
`k`-prefix. -/
theorem findAnchor_spec (marked : MarkedDirs) :
    ∀ (n : Nat) (ds : List String), ds.length ≤ n → ∀ k, k ≤ ds.length →
      ds.take k ∉ marked →
      (∀ j, k < j → j ≤ ds.length → ds.take j ∈ marked) →
      findAnchor marked ds = some (ds.take k) := by
  intro n
  induction n with
  | zero =>
      intro ds hds k hk hfree _
      have hnil : ds = [] := List.length_eq_zero.mp (Nat.le_zero.mp hds)
      subst hnil
      have hk0 : k = 0 := Nat.le_zero.mp (by simpa using hk)
      subst hk0
      rw [findAnchor]
      simp only [List.take_nil] at hfree ⊢
      rw [if_neg hfree]
  | succ n ih =>
      intro ds hds k hk hfree hmark
      rw [findAnchor]
      by_cases hm : ds ∈ marked
      · have hklt : k < ds.length := by
          rcases Nat.lt_or_ge k ds.length with h | h
          · exact h
          · have hkeq : k = ds.length := le_antisymm hk h
            subst hkeq
            rw [List.take_length] at hfree
            exact absurd hm hfree
        have hne : ds ≠ [] := by
          intro hnil; subst hnil; simp at hklt
        rw [if_pos hm, if_neg hne]
        have hlen : ds.dropLast.length = ds.length - 1 := by
          simp [List.length_dropLast]
        have htake : ∀ j, j ≤ ds.length - 1 → ds.dropLast.take j = ds.take j := by
          intro j hj
          rw [List.dropLast_eq_take, List.take_take, Nat.min_eq_left hj]
        have hfree' : ds.dropLast.take k ∉ marked := by
          rw [htake k (by omega)]; exact hfree
        have hmark' : ∀ j, k < j → j ≤ ds.dropLast.length → ds.dropLast.take j ∈ marked := by
          intro j hj1 hj2
          rw [htake j (by omega)]
          exact hmark j hj1 (by omega)
        rw [ih ds.dropLast (by omega) k (by omega) hfree' hmark']
        rw [htake k (by omega)]
      · rw [if_neg hm]
        have hkeq : k = ds.length := by
          by_contra hne
          have hklt : k < ds.length := lt_of_le_of_ne hk hne
          exact hm (by simpa [List.take_length] using hmark ds.length hklt le_rfl)
        rw [hkeq, List.take_length]

/-- Decoding the encoding of a string array gives it back. -/
theorem decodeValues_encodeArr (vs : Values) :
    decodeValues (Json.arr (vs.map .str)) = some vs := by
  induction vs with
  | nil => simp [decodeValues, mapMOpt]
  | cons v vsi ih =>
      simp only [decodeValues] at ih ⊢
      simp [mapMOpt, ih]

/-- Decoding the encoded fields of one function's category mapping, key by
key. -/
theorem mapMOpt_decode_fields (d : FuncStub) (ks : List String) :
    mapMOpt (fun kv => (decodeValues kv.2).map (fun vs => (kv.1, vs)))
      (ks.filterMap (fun k => (alGet? d k).map (fun vs => (k, Json.arr (vs.map .str))))) =
    some (ks.filterMap (fun k => (alGet? d k).map (fun vs => (k, vs)))) := by
  induction ks with
  | nil => simp [mapMOpt]
  | cons k ks ih =>
      cases h : alGet? d k with
      | none => simp [h, ih]
      | some vs => simp [h, mapMOpt, decodeValues_encodeArr, ih]

/-- Decoding the encoding of one function's category mapping gives its
key-sorted normal form. -/
theorem decodeInner_encodeInner (d : FuncStub) :
    decodeInner (encodeInner d) = some (canonInner d) := by
  unfold encodeInner canonInner
  simp only [decodeInner]
  exact mapMOpt_decode_fields d (sortedKeysOf d)

/-- Decoding the encoded fields of a content tree, key by key. -/
theorem mapMOpt_decode_content (c : Content) (ks : List String) :
    mapMOpt (fun kv => (decodeInner kv.2).map (fun d => (kv.1, d)))
      (ks.filterMap (fun k => (alGet? c k).map (fun d => (k, encodeInner d)))) =
    some (ks.filterMap (fun k => (alGet? c k).map (fun d => (k, canonInner d)))) := by
  induction ks with
  | nil => simp [mapMOpt]
  | cons k ks ih =>
      cases h : alGet? c k with
      | none => simp [h, ih]
      | some d => simp [h, mapMOpt, decodeInner_encodeInner, ih]

/-- Loading a dumped content tree gives the content's key-sorted normal form. -/
theorem load_encodeContent (c : Content) :
    StubFile.load (encodeContent c) = some (canonContent c) := by
  unfold encodeContent canonContent
  simp only [StubFile.load]
  exact mapMOpt_decode_content c (sortedKeysOf c)

/-- Lookup in a key-driven `filterMap` projection of an association list. -/
theorem alGet?_keyFilterMap {α β : Type} (ks : List String) (l : List (String × α))
    (g : α → β) (k : String) (hN : ks.Nodup) :
    alGet? (ks.filterMap (fun k' => (alGet? l k').map (fun v => (k', g v)))) k =
      if k ∈ ks then (alGet? l k).map g else Option.none := by
  induction ks with
  | nil => simp [alGet?]
  | cons k' ks ih =>
      have hN' : ks.Nodup := List.Nodup.of_cons hN
      cases h : alGet? l k' with
      | none =>
          simp only [List.filterMap_cons, h, Option.map_none']
          rw [ih hN']
          by_cases hk : k = k'
          · subst hk
            simp [h]
          · simp [hk]
      | some v =>
          simp only [List.filterMap_cons, h, Option.map_some']
          by_cases hk : k = k'
          · subst hk
            simp [alGet?, h]
          · simp only [alGet?, if_neg (Ne.symm hk), ih hN']
            simp [hk]

/-- Lookup in the identity key-driven `filterMap` (the `canonInner` shape). -/
theorem alGet?_keyFilterMapId {α : Type} (ks : List String) (l : List (String × α))
    (k : String) (hN : ks.Nodup) :
    alGet? (ks.filterMap (fun k' => (alGet? l k').map (fun v => (k', v)))) k =
      if k ∈ ks then alGet? l k else Option.none := by
  induction ks with
  | nil => simp [alGet?]
  | cons k' ks ih =>
      have hN' : ks.Nodup := List.Nodup.of_cons hN
      cases h : alGet? l k' with
      | none =>
          simp only [List.filterMap_cons, h, Option.map_none']
          rw [ih hN']
          by_cases hk : k = k'
          · subst hk
            simp [h]
          · simp [hk]
      | some v =>
          simp only [List.filterMap_cons, h, Option.map_some']
          by_cases hk : k = k'
          · subst hk
            simp [alGet?, h]
          · simp only [alGet?, if_neg (Ne.symm hk), ih hN']
            simp [hk]

/-- Sorting preserves duplicate-freedom. -/
theorem sortStrings_nodup {l : List String} (h : l.Nodup) : (sortStrings l).Nodup :=
  (List.perm_insertionSort _ l).nodup_iff.mpr h

/-- Sorting preserves membership. -/
theorem mem_sortStrings {k : String} {l : List String} : k ∈ sortStrings l ↔ k ∈ l :=
  (List.perm_insertionSort _ l).mem_iff

/-- Lookup in the key-sorted normal form of stub content. -/
theorem alGet?_canonContent {c : Content} (hWF : WFContent c) (k : String) :
    alGet? (canonContent c) k = (alGet? c k).map canonInner := by
  unfold canonContent
  rw [alGet?_keyFilterMap (sortedKeysOf c) c canonInner k (sortStrings_nodup hWF.1)]
  by_cases hk : k ∈ sortedKeysOf c
  · simp [hk]
  · have hmem : k ∉ c.map Prod.fst := fun h => hk (by simpa [sortedKeysOf, mem_sortStrings] using h)
    simp [hk, alGet?_eq_none_of_not_mem hmem]

/-- Lookup in the key-sorted normal form of one function's mapping. -/
theorem alGet?_canonInner {d : FuncStub} (hN : (d.map Prod.fst).Nodup) (k : String) :
    alGet? (canonInner d) k = alGet? d k := by
  unfold canonInner
  rw [alGet?_keyFilterMapId (sortedKeysOf d) d k (sortStrings_nodup hN)]
  by_cases hk : k ∈ sortedKeysOf d
  · simp [hk]
  · have hmem : k ∉ d.map Prod.fst := fun h => hk (by simpa [sortedKeysOf, mem_sortStrings] using h)
    simp [hk, alGet?_eq_none_of_not_mem hmem]

/-- Inner equivalence gives lookup equality on every key. -/
theorem innerEquiv_lookup {d₁ d₂ : FuncStub} (he : innerEquiv d₁ d₂) (k : String) :
    alGet? d₁ k = alGet? d₂ k := by
  by_cases hk : k ∈ d₁.map Prod.fst
  · exact he.1 k hk
  · by_cases hk2 : k ∈ d₂.map Prod.fst
    · exact he.2 k hk2
    · rw [alGet?_eq_none_of_not_mem hk, alGet?_eq_none_of_not_mem hk2]

/-- Content equivalence gives equivalent lookups on every key. -/
theorem contentEquiv_lookup {c₁ c₂ : Content} (he : contentEquiv c₁ c₂) (f : String) :
    optInnerEquiv (alGet? c₁ f) (alGet? c₂ f) := by
  by_cases hk : f ∈ c₁.map Prod.fst
  · exact he.1 f hk
  · by_cases hk2 : f ∈ c₂.map Prod.fst
    · exact he.2 f hk2
    · rw [alGet?_eq_none_of_not_mem hk, alGet?_eq_none_of_not_mem hk2]
      trivial

/-- Equivalent well-formed association lists have equal sorted key lists. -/
theorem sortedKeys_eq_of_lookup {α : Type} {l₁ l₂ : List (String × α)}
    (h₁ : (l₁.map Prod.fst).Nodup) (h₂ : (l₂.map Prod.fst).Nodup)
    (h : ∀ k, (alGet? l₁ k).isSome = (alGet? l₂ k).isSome) :
    sortedKeysOf l₁ = sortedKeysOf l₂ := by
  have hperm : List.Perm (l₁.map Prod.fst) (l₂.map Prod.fst) := by
    rw [List.perm_ext_iff_of_nodup h₁ h₂]
    intro k
    rw [← alGet?_isSome_iff, ← alGet?_isSome_iff, h k]
  exact List.eq_of_perm_of_sorted
    (((List.perm_insertionSort (· ≤ ·) _).trans hperm).trans
      (List.perm_insertionSort (· ≤ ·) _).symm)
    (List.sorted_insertionSort (· ≤ ·) _) (List.sorted_insertionSort (· ≤ ·) _)

/-- Equivalent well-formed inner mappings encode to the same JSON tree. -/
theorem encodeInner_eq_of_equiv {d₁ d₂ : FuncStub}
    (h₁ : (d₁.map Prod.fst).Nodup) (h₂ : (d₂.map Prod.fst).Nodup)
    (he : innerEquiv d₁ d₂) : encodeInner d₁ = encodeInner d₂ := by
  have hlook := innerEquiv_lookup he
  have hkeys : sortedKeysOf d₁ = sortedKeysOf d₂ :=
    sortedKeys_eq_of_lookup h₁ h₂ (fun k => by rw [hlook k])
  unfold encodeInner
  rw [hkeys]
  exact congrArg Json.obj (List.filterMap_congr (fun k _ => by rw [hlook k]))

/-- Equivalent well-formed contents encode to the same JSON tree: the
serialization is deterministic in the dictionary value. -/
theorem encodeContent_eq_of_equiv {c₁ c₂ : Content}
    (h₁ : WFContent c₁) (h₂ : WFContent c₂)
    (he : contentEquiv c₁ c₂) : encodeContent c₁ = encodeContent c₂ := by
  have hopt := contentEquiv_lookup he
  have hsome : ∀ k, (alGet? c₁ k).isSome = (alGet? c₂ k).isSome := by
    intro k
    have h := hopt k
    rcases e₁ : alGet? c₁ k with _ | d₁ <;> rcases e₂ : alGet? c₂ k with _ | d₂ <;>
      simp [e₁, e₂, optInnerEquiv] at h ⊢
  have hkeys : sortedKeysOf c₁ = sortedKeysOf c₂ :=
    sortedKeys_eq_of_lookup h₁.1 h₂.1 hsome
  unfold encodeContent
  rw [hkeys]
  refine congrArg Json.obj (List.filterMap_congr (fun k _ => ?_))
  have h := hopt k
  rcases e₁ : alGet? c₁ k with _ | d₁ <;> rcases e₂ : alGet? c₂ k with _ | d₂ <;>
      rw [e₁, e₂] at h <;> simp [optInnerEquiv] at h ⊢
  have hd₁ : (d₁.map Prod.fst).Nodup := h₁.2 _ (alGet?_some_mem e₁)
  have hd₂ : (d₂.map Prod.fst).Nodup := h₂.2 _ (alGet?_some_mem e₂)
  exact encodeInner_eq_of_equiv hd₁ hd₂ h

/-- Equivalent contents are empty together. -/
theorem contentEquiv_nil_iff {c₁ c₂ : Content} (he : contentEquiv c₁ c₂) :
    c₁ = [] ↔ c₂ = [] := by
  constructor <;> intro h <;> subst h
  · cases c₂ with
    | nil => rfl
    | cons p rest =>
        rcases p with ⟨pk, pd⟩
        have h := contentEquiv_lookup he pk
        rw [show alGet? ([] : Content) pk = Option.none from rfl] at h
        rw [show alGet? ((pk, pd) :: rest) pk = some pd from by simp [alGet?]] at h
        exact absurd h (by simp [optInnerEquiv])
  · cases c₁ with
    | nil => rfl
    | cons p rest =>
        rcases p with ⟨pk, pd⟩
        have h := contentEquiv_lookup he pk
        rw [show alGet? ((pk, pd) :: rest) pk = some pd from by simp [alGet?]] at h
        rw [show alGet? ([] : Content) pk = Option.none from rfl] at h
        exact absurd h (by simp [optInnerEquiv])

/-- The last dotted component of the `deal.pre` decorator name. -/
theorem lastDotted_deal_pre : lastDotted "deal.pre" = "pre" := by decide

end Lemmas

section Claims

/-- C1: analyzing `a` (which calls `b`, which calls `c`, where only `c` raises
directly and `b` declares `deal.raises(KeyError)`) is claimed to yield a token
for `b`'s declared RAISES contract and no token for `c`'s raise.  On this code
the declared-contract branch instead crashes: `_exceptions_from_funcs` passes
the raw decorator list to `get_contracts`, which expects a function node and
reads its `decorators` attribute, so `AttributeError` escapes and no token at
all is produced (first conjunct).  Analyzing `c` directly does find its raise
(second conjunct), and with an undecorated `b` the analysis terminates with no
token for `c`'s raise — the one-level dive bound itself holds (third
conjunct). -/
theorem c1_dive_declared_raises_crashes :
    getExceptions envABC 9 aBody true Option.none = ([], some PyErr.attributeError) ∧
    getExceptions envABC 9 cDef.body true Option.none =
      ([⟨.obj ⟨"ValueError", true⟩, Option.none, 1, 8⟩], Option.none) ∧
    getExceptions envABCPlain 9 aBody true Option.none = ([], Option.none) := by
  refine ⟨by decide, by decide, by decide⟩

/-- C2: the claim says that a call to an unresolvable callee makes
`get_exceptions` query the stub store for the callee's recorded RAISES set.
On this code the `stubs` parameter is accepted but never read: with a store
that records `qux raises ValueError`, analyzing a body that calls the
unresolvable `qux` yields no token, and passing no store at all gives the
identical result. -/
theorem c2_stubs_argument_ignored :
    getExceptions envNoInfer 9 quxBody true (some quxStubs) = ([], Option.none) ∧
    getExceptions envNoInfer 9 quxBody true Option.none = ([], Option.none) ∧
    valuesAt quxStubContent "qux" Category.RAISES = ["ValueError"] := by
  refine ⟨by decide, by decide, by decide⟩

/-- C3 (amended): for a call with statically reducible arguments whose callee
resolves to one function declaring exactly one `pre` contract, the verdict is:
a `NameError` is skipped silently; the bool `False` or any value of exact type
`str` — including the empty string — yields exactly one violation token whose
value is the formatted argument list, with the string as marker when it is
non-empty; every other result yields no token. -/
theorem c3_precondition_verdicts (env : Env) (fuel : Nat) (cp np : Pos)
    (fname : String) (argNodes : List Node) (kwNodes : List (String × Node))
    (argVals : List PyVal) (kwVals : List (String × PyVal))
    (f : FunctionDef) (cinfo : ContractInfo)
    (hargs : mapMOpt getValue argNodes = some argVals)
    (hkws : mapMOpt (fun kv => (getValue kv.2).map (fun v => (kv.1, v))) kwNodes = some kwVals)
    (hinf : env.infer fname = some [PyDyn.funcDef f])
    (hcon : getContractsDyn env fuel (.funcDef f) = .ok [cinfo])
    (hpre : cinfo.cname = "pre") :
    (env.runContract f.params cinfo argVals kwVals = .nameError →
      handleCall env fuel (.call cp (.name np fname) argNodes kwNodes) = ([], Option.none)) ∧
    (env.runContract f.params cinfo argVals kwVals = .res (.boolV false) →
      handleCall env fuel (.call cp (.name np fname) argNodes kwNodes) =
        ([⟨.str (formatCallArgs argVals kwVals), Option.none, cp.line, cp.col⟩], Option.none)) ∧
    (∀ s, env.runContract f.params cinfo argVals kwVals = .res (.strV s) →
      handleCall env fuel (.call cp (.name np fname) argNodes kwNodes) =
        ([⟨.str (formatCallArgs argVals kwVals),
           (if s = "" then Option.none else some s), cp.line, cp.col⟩], Option.none)) ∧
    ((env.runContract f.params cinfo argVals kwVals = .res (.boolV true) ∨
      env.runContract f.params cinfo argVals kwVals = .res .otherV) →
      handleCall env fuel (.call cp (.name np fname) argNodes kwNodes) = ([], Option.none)) := by
  have key : handleCall env fuel (.call cp (.name np fname) argNodes kwNodes) =
      (hcContracts env f cp argVals kwVals [cinfo], Option.none) := by
    simp [handleCall, hargs, hkws, inferNode, getName, hinf, hcFuncs, hcon, TStream.seqs]
  refine ⟨?_, ?_, ?_, ?_⟩
  · intro h
    rw [key]
    simp [hcContracts, hpre, h]
  · intro h
    rw [key]
    simp [hcContracts, hpre, h]
  · intro s h
    rw [key]
    simp [hcContracts, hpre, h]
  · rintro (h | h) <;> rw [key] <;> simp [hcContracts, hpre, h]

/-- C3 witness: the claim's own example — `divide(10, 0)` against one `pre`
contract whose evaluation yields the bool `False` — produces exactly one token
whose value is the rendering `10` comma-space `0`. -/
theorem c3_precondition_verdicts_witness :
    mapMOpt getValue [Node.const ⟨5, 7⟩ (.intV 10), Node.const ⟨5, 11⟩ (.intV 0)] =
      some [PyVal.intV 10, PyVal.intV 0] ∧
    envBoolFalse.infer "divide" = some [PyDyn.funcDef divideDef] ∧
    envBoolFalse.runContract divideDef.params ⟨"pre", [.other ⟨1, 9⟩ []], [], 1⟩
      [PyVal.intV 10, PyVal.intV 0] [] = .res (.boolV false) ∧
    handleCall envBoolFalse 9 divideCall =
      ([⟨.str "10, 0", Option.none, 5, 0⟩], Option.none) := by
  refine ⟨rfl, rfl, rfl, ?_⟩
  have h := (c3_precondition_verdicts envBoolFalse 9 ⟨5, 0⟩ ⟨5, 0⟩ "divide"
    [Node.const ⟨5, 7⟩ (.intV 10), Node.const ⟨5, 11⟩ (.intV 0)] []
    [PyVal.intV 10, PyVal.intV 0] [] divideDef ⟨"pre", [.other ⟨1, 9⟩ []], [], 1⟩
    rfl rfl rfl
    (by simp [getContractsDyn, divideDef, preDecorators, getContractsAux, getName,
      SUPPORTED_CONTRACTS, lastDotted_deal_pre])
    rfl).2.1 rfl
  exact h.trans (by rfl)

/-- C3 counterexample: the claim says an empty-string verdict means satisfied
and contributes no token, but the source tests `type(result) is str`, so the
empty string yields a violation token (with no marker). -/
theorem c3_empty_string_counterexample :
    envEmptyStr.runContract divideDef.params ⟨"pre", [.other ⟨1, 9⟩ []], [], 1⟩
      [PyVal.intV 10, PyVal.intV 0] [] = .res (.strV "") ∧
    handleCall envEmptyStr 9 divideCall =
      ([⟨.str "10, 0", Option.none, 5, 0⟩], Option.none) := by
  refine ⟨rfl, ?_⟩
  have h := (c3_precondition_verdicts envEmptyStr 9 ⟨5, 0⟩ ⟨5, 0⟩ "divide"
    [Node.const ⟨5, 7⟩ (.intV 10), Node.const ⟨5, 11⟩ (.intV 0)] []
    [PyVal.intV 10, PyVal.intV 0] [] divideDef ⟨"pre", [.other ⟨1, 9⟩ []], [], 1⟩
    rfl rfl rfl
    (by simp [getContractsDyn, divideDef, preDecorators, getContractsAux, getName,
      SUPPORTED_CONTRACTS, lastDotted_deal_pre])
    rfl).2.2.1 "" rfl
  exact h.trans (by rfl)

/-- C4 (amended): a bare-identifier decorator resolving to a prior assignment
is expanded by substituting the assigned expression and re-running the full
extraction on it, so chains of bare identifiers are followed transitively,
one substitution per unit of the modelled recursion budget — not stopped
after a single level. -/
theorem c4_decorator_substitution_recurses (env : Env) (fuel : Nat) (p : Pos)
    (b : String) (e : Node) (h : env.lookupAssign b = some e) :
    getContractsAux env (fuel + 1) [Node.name p b] = getContractsAux env fuel [e] := by
  cases hr : getContractsAux env fuel [e] with
  | none => simp [getContractsAux, h, hr]
  | some l => simp [getContractsAux, h, hr]

/-- C4 witness: one substitution step on the concrete chain. -/
theorem c4_decorator_substitution_recurses_witness :
    envChain.lookupAssign "b" = some (Node.name ⟨1, 4⟩ "a") ∧
    getContractsAux envChain 9 [Node.name ⟨5, 1⟩ "b"] =
      getContractsAux envChain 8 [Node.name ⟨1, 4⟩ "a"] :=
  ⟨rfl, c4_decorator_substitution_recurses envChain 8 ⟨5, 1⟩ "b" (Node.name ⟨1, 4⟩ "a") rfl⟩

/-- C4 counterexample: with `b = a` and `a = deal.pre(...)`, extracting the
decorator `b` follows the two-step chain and finds the `pre` contract declared
on line 2 — the claim predicts that the second step is not followed and
nothing is found. -/
theorem c4_chain_counterexample :
    envChain.lookupAssign "b" = some (Node.name ⟨1, 4⟩ "a") ∧
    envChain.lookupAssign "a" = some dealPreCall ∧
    (getContractsAux envChain 9 [Node.name ⟨5, 1⟩ "b"]).map
      (fun l => l.map (fun ci => (ci.cname, ci.line))) = some [("pre", 2)] := by
  refine ⟨rfl, rfl, ?_⟩
  simp [getContractsAux, envChain, dealPreCall, getName, SUPPORTED_CONTRACTS, lastDotted_deal_pre]

/-- C5 (amended): a division whose right operand is a literal constant equal
to zero (integer `0`, float `0.0`, or `False`) always yields a
division-by-zero token carrying the division expression's line and the
divisor's column, whenever the analysis stream completes without a
host-language exception (with `dive=False` it always does).  Divisors that
are statically reducible but not literal are not flagged, and the token's
line is the division's, not the divisor's — see the counterexample. -/
theorem c5_literal_zero_divisor_token (env : Env) (fuel : Nat)
    (stubs : Option StubsManagerM) (dive : Bool) (body : List Node)
    (p cp : Pos) (l : Node) (v : PyVal)
    (hmem : Node.binOp p .div l (.const cp v) ∈ preorderList body)
    (hzero : pyEqZero v = true)
    (hdone : (getExceptions env fuel body dive stubs).2 = Option.none) :
    (⟨.obj ZeroDivisionErrorB, Option.none, p.line, cp.col⟩ : Token) ∈
      (getExceptions env fuel body dive stubs).1 := by
  have ht : (localStep (Node.binOp p .div l (.const cp v))).1 =
      some ⟨.obj ZeroDivisionErrorB, Option.none, p.line, cp.col⟩ := by
    simp [localStep, hzero]
  cases dive with
  | true =>
      simp only [getExceptions, if_pos] at hdone ⊢
      exact mem_getExcListD_of_localStep hmem ht hdone
  | false =>
      simp only [getExceptions, Bool.false_eq_true, if_neg] at hdone ⊢
      exact mem_getExcListND_of_localStep hmem ht

/-- C5 witness: the literal division `7 / 0` yields the token at the
division's line and the divisor's column. -/
theorem c5_literal_zero_divisor_token_witness :
    Node.binOp ⟨1, 0⟩ .div (.const ⟨1, 0⟩ (.intV 7)) (.const ⟨1, 4⟩ (.intV 0)) ∈
      preorderList divWitnessBody ∧
    (getExceptions envNoInfer 9 divWitnessBody true Option.none).2 = Option.none ∧
    (⟨.obj ZeroDivisionErrorB, Option.none, 1, 4⟩ : Token) ∈
      (getExceptions envNoInfer 9 divWitnessBody true Option.none).1 := by
  refine ⟨?_, rfl, ?_⟩
  · simp [divWitnessBody, preorderList, preorder]
  · exact c5_literal_zero_divisor_token envNoInfer 9 Option.none true divWitnessBody
      ⟨1, 0⟩ ⟨1, 4⟩ (.const ⟨1, 0⟩ (.intV 7)) (PyVal.intV 0)
      (by simp [divWitnessBody, preorderList, preorder]) rfl rfl

/-- C5 counterexample: in a body with `x / (-0)` (divisor statically reducible
to zero but not a literal constant) and a division starting on line 2 whose
literal-zero divisor sits on line 3, the engine emits exactly one token — none
for the reducible divisor, and the one emitted carries the division's line 2,
not the divisor's line 3 — while the claim predicts two tokens, each at its
divisor's location. -/
theorem c5_reducible_divisor_counterexample :
    getValue (Node.unaryOp ⟨1, 4⟩ .usub (.const ⟨1, 5⟩ (.intV 0))) = some (PyVal.intV 0) ∧
    getExceptions envNoInfer 9 divBody true Option.none =
      ([⟨.obj ZeroDivisionErrorB, Option.none, 2, 4⟩], Option.none) ∧
    (⟨.obj ZeroDivisionErrorB, Option.none, 1, 4⟩ : Token) ∉
      (getExceptions envNoInfer 9 divBody true Option.none).1 ∧
    (⟨.obj ZeroDivisionErrorB, Option.none, 3, 4⟩ : Token) ∉
      (getExceptions envNoInfer 9 divBody true Option.none).1 := by
  refine ⟨by decide, by decide, by decide, by decide⟩

/-- C6 (amended): for a RAISES/HAS category, `StubFile.add` is idempotent
(adding the same triple twice equals adding it once), records the value, and
only ever grows every backing list (monotonic superset-union).  When the value
was not yet present the re-sorted backing list is sorted and stays
duplicate-free; when it was present the store is returned untouched — so a
sorted list stays sorted, but a list pre-loaded unsorted from disk is not
re-sorted by such an add (see the counterexample). -/
theorem c6_add_idempotent_monotone (c : Content) (f : String) (cat : Category)
    (v : String) (hcat : cat = Category.RAISES ∨ cat = Category.HAS) :
    ∃ c', StubFile.add c f cat v = .ok c' ∧
      StubFile.add c' f cat v = .ok c' ∧
      v ∈ valuesAt c' f cat ∧
      (∀ f' cat', valuesAt c f' cat' ⊆ valuesAt c' f' cat') ∧
      (v ∉ valuesAt c f cat → (valuesAt c' f cat).Sorted (· ≤ ·)) ∧
      ((valuesAt c f cat).Sorted (· ≤ ·) → (valuesAt c' f cat).Sorted (· ≤ ·)) ∧
      ((valuesAt c f cat).Nodup → (valuesAt c' f cat).Nodup) := by
  have hvalid : ¬(cat ≠ Category.RAISES ∧ cat ≠ Category.HAS) := by
    rcases hcat with rfl | rfl <;> simp
  by_cases hmem : v ∈ valuesAt c f cat
  · have hmemR := hmem
    rw [valuesAt_def] at hmemR
    have hok : StubFile.add c f cat v = .ok c := by
      simp only [StubFile.add, if_neg hvalid]
      rw [if_pos hmemR]
    exact ⟨c, hok, hok, hmem, fun f' cat' => List.Subset.refl _,
      fun hn => absurd hmem hn, id, id⟩
  · refine ⟨alSet c f (alSet ((alGet? c f).getD []) cat.value
      (sortStrings (valuesAt c f cat ++ [v]))), ?_⟩
    have hval' : valuesAt (alSet c f (alSet ((alGet? c f).getD []) cat.value
        (sortStrings (valuesAt c f cat ++ [v])))) f cat =
        sortStrings (valuesAt c f cat ++ [v]) := by
      rw [valuesAt_def, alGet?_alSet_self, Option.getD_some, alGet?_alSet_self,
        Option.getD_some]
    have hvS : v ∈ sortStrings (valuesAt c f cat ++ [v]) :=
      (List.perm_insertionSort _ _).mem_iff.mpr (by simp)
    have hmem' : v ∈ valuesAt (alSet c f (alSet ((alGet? c f).getD []) cat.value
        (sortStrings (valuesAt c f cat ++ [v])))) f cat := by
      rw [hval']; exact hvS
    have hmemR := hmem
    rw [valuesAt_def] at hmemR
    have hmemR' := hmem'
    rw [valuesAt_def] at hmemR'
    refine ⟨?_, ?_, hmem', ?_, ?_, ?_, ?_⟩
    · simp only [StubFile.add, if_neg hvalid]
      rw [if_neg hmemR]
      rfl
    · simp only [StubFile.add, if_neg hvalid]
      rw [if_pos hmemR']
    · intro f' cat' x hx
      by_cases hf : f' = f
      · subst hf
        by_cases hcv : cat'.value = cat.value
        · have hcc : cat' = cat := Category.value_inj _ _ hcv
          subst hcc
          rw [hval']
          exact (List.perm_insertionSort _ _).mem_iff.mpr (List.mem_append_left _ hx)
        · rw [valuesAt_def, alGet?_alSet_self, Option.getD_some,
            alGet?_alSet_ne _ _ _ _ hcv]
          rw [valuesAt_def] at hx
          exact hx
      · rw [valuesAt_def, alGet?_alSet_ne _ _ _ _ hf]
        rw [valuesAt_def] at hx
        exact hx
    · intro _
      rw [hval']
      exact List.sorted_insertionSort _ _
    · intro _
      rw [hval']
      exact List.sorted_insertionSort _ _
    · intro hnd
      rw [hval']
      refine (List.perm_insertionSort _ _).nodup_iff.mpr ?_
      simp [List.nodup_append, hnd, hmem]

/-- C6 witness: adding one value to the empty store. -/
theorem c6_add_idempotent_monotone_witness :
    (Category.RAISES = Category.RAISES ∨ Category.RAISES = Category.HAS) ∧
    (∃ c', StubFile.add [] "fname" Category.RAISES "TypeError" = .ok c' ∧
      StubFile.add c' "fname" Category.RAISES "TypeError" = .ok c' ∧
      "TypeError" ∈ valuesAt c' "fname" Category.RAISES ∧
      (∀ f' cat', valuesAt [] f' cat' ⊆ valuesAt c' f' cat') ∧
      ("TypeError" ∉ valuesAt [] "fname" Category.RAISES →
        (valuesAt c' "fname" Category.RAISES).Sorted (· ≤ ·)) ∧
      ((valuesAt [] "fname" Category.RAISES).Sorted (· ≤ ·) →
        (valuesAt c' "fname" Category.RAISES).Sorted (· ≤ ·)) ∧
      ((valuesAt [] "fname" Category.RAISES).Nodup →
        (valuesAt c' "fname" Category.RAISES).Nodup)) :=
  ⟨Or.inl rfl, c6_add_idempotent_monotone [] "fname" Category.RAISES "TypeError" (Or.inl rfl)⟩

/-- C6 counterexample: on a store whose backing list was loaded unsorted from
disk, adding an already-present value returns the store untouched, so the
backing list after the add is not sorted — refuting the claim that after
every add the backing list is sorted. -/
theorem c6_unsorted_counterexample :
    StubFile.add unsortedContent "f" Category.RAISES "a" = .ok unsortedContent ∧
    valuesAt unsortedContent "f" Category.RAISES = ["b", "a"] ∧
    ¬ (["b", "a"] : List String).Sorted (· ≤ ·) := by
  refine ⟨?_, by decide, ?_⟩
  · simp only [StubFile.add, unsortedContent]
    rw [if_neg (by decide), if_pos (by decide)]
  · intro h
    have hba := List.rel_of_sorted_cons h "a" (by simp)
    rw [String.le_iff_toList_le] at hba
    exact absurd hba (by decide)

/-- C7: dumping non-empty content and loading it back on a fresh store
reproduces the content exactly (Python dictionary equality, as the
repository's own test checks); the serialization is a deterministic function
of the dictionary value, so equal contents give byte-identical files; and
dumping an empty store writes no file at all. -/
theorem c7_dump_load_round_trip :
    (∀ c : Content, WFContent c → c ≠ [] →
      ∃ c', (StubFile.dump c).bind StubFile.load = some c' ∧ contentEquiv c' c) ∧
    (∀ c₁ c₂ : Content, WFContent c₁ → WFContent c₂ → contentEquiv c₁ c₂ →
      StubFile.dump c₁ = StubFile.dump c₂) ∧
    StubFile.dump ([] : Content) = Option.none := by
  refine ⟨?_, ?_, rfl⟩
  · intro c hWF hne
    refine ⟨canonContent c, ?_, ?_⟩
    · simp [StubFile.dump, hne, load_encodeContent]
    · have hopt : ∀ fq, optInnerEquiv (alGet? (canonContent c) fq) (alGet? c fq) := by
        intro fq
        rw [alGet?_canonContent hWF fq]
        cases e : alGet? c fq with
        | none => trivial
        | some d =>
            have hdN : (d.map Prod.fst).Nodup := hWF.2 _ (alGet?_some_mem e)
            have hil := alGet?_canonInner hdN
            exact ⟨fun k _ => hil k, fun k _ => hil k⟩
      exact ⟨fun fq _ => hopt fq, fun fq _ => hopt fq⟩
  · intro c₁ c₂ h₁ h₂ he
    by_cases hnil : c₁ = []
    · have hnil₂ : c₂ = [] := (contentEquiv_nil_iff he).mp hnil
      rw [hnil, hnil₂]
    · have hnil₂ : c₂ ≠ [] := fun h => hnil ((contentEquiv_nil_iff he).mpr h)
      simp only [StubFile.dump, if_neg hnil, if_neg hnil₂]
      rw [encodeContent_eq_of_equiv h₁ h₂ he]

/-- C7 witness: the round trip on the repository test's content, and
determinism across two insertion orders of the same dictionary value. -/
theorem c7_dump_load_round_trip_witness :
    WFContent rtContent ∧ rtContent ≠ [] ∧
    (∃ c', (StubFile.dump rtContent).bind StubFile.load = some c' ∧
      contentEquiv c' rtContent) ∧
    contentEquiv detContentA detContentB ∧
    StubFile.dump detContentA = StubFile.dump detContentB :=
  ⟨by decide, by decide,
   c7_dump_load_round_trip.1 rtContent (by decide) (by decide),
   by decide,
   c7_dump_load_round_trip.2.1 detContentA detContentB (by decide) (by decide) (by decide)⟩

/-- C8: `StubFile.add` and `StubFile.get` reject every category other than
RAISES and HAS with the `ValueError` message `unsupported contract`, while
`get` for a valid category on an unrecorded function name answers the empty
set rather than failing. -/
theorem c8_category_validation (c : Content) (f v : String) (cat : Category) :
    (cat ≠ Category.RAISES ∧ cat ≠ Category.HAS →
      StubFile.add c f cat v = .error "unsupported contract" ∧
      StubFile.get c f cat = .error "unsupported contract") ∧
    ((cat = Category.RAISES ∨ cat = Category.HAS) → alGet? c f = Option.none →
      StubFile.get c f cat = .ok ∅) := by
  constructor
  · intro h
    exact ⟨by simp only [StubFile.add, if_pos h], by simp only [StubFile.get, if_pos h]⟩
  · intro hcat hnone
    have hvalid : ¬(cat ≠ Category.RAISES ∧ cat ≠ Category.HAS) := by
      rcases hcat with rfl | rfl <;> simp
    simp [StubFile.get, hvalid, hnone, alGet?]

/-- C8 witness: POST is rejected by both operations; RAISES on an unrecorded
name answers the empty set. -/
theorem c8_category_validation_witness :
    (Category.POST ≠ Category.RAISES ∧ Category.POST ≠ Category.HAS) ∧
    (StubFile.add [] "fname" Category.POST "SyntaxError" = .error "unsupported contract" ∧
     StubFile.get [] "fname" Category.POST = .error "unsupported contract") ∧
    alGet? ([] : Content) "unknown" = Option.none ∧
    StubFile.get [] "unknown" Category.RAISES = .ok ∅ :=
  ⟨by decide,
   (c8_category_validation [] "fname" "SyntaxError" Category.POST).1 (by decide),
   rfl,
   (c8_category_validation [] "unknown" "x" Category.RAISES).2 (Or.inl rfl) rfl⟩

/-- C9: `_get_module_name` answers the bare stem when the file's directory
carries no package marker; when it does, the walk ascends through marked
ancestors and answers the dotted path of the file relative to the first
ancestor lacking a marker. -/
theorem c9_module_name_resolution (marked : MarkedDirs) (dirs : List String)
    (stem : String) :
    (dirs ∉ marked → getModuleName marked dirs stem = some stem) ∧
    (dirs ∈ marked → ∀ k, k ≤ dirs.length → dirs.take k ∉ marked →
      (∀ j, k < j → j ≤ dirs.length → dirs.take j ∈ marked) →
      getModuleName marked dirs stem =
        some (String.intercalate "." (dirs.drop k ++ [stem]))) := by
  constructor
  · intro h
    simp [getModuleName, h]
  · intro hm k hk hfree hmark
    have hanchor := findAnchor_spec marked dirs.length dirs le_rfl k hk hfree hmark
    simp only [getModuleName, if_pos hm, hanchor]
    rw [List.length_take, Nat.min_eq_left hk]

/-- C9 witness: the repository test's scenario — without a package marker the
stem, after adding the marker the directory-qualified dotted name. -/
theorem c9_module_name_resolution_witness :
    getModuleName [] ["project"] "example" = some "example" ∧
    getModuleName [["project"]] ["project"] "example" = some "project.example" := by
  constructor
  · exact (c9_module_name_resolution [] ["project"] "example").1 (by decide)
  · have h := (c9_module_name_resolution [["project"]] ["project"] "example").2
      (by decide) 0 (by decide) (by decide)
      (fun j h1 h2 => by
        have h2x : j ≤ 1 := by simpa using h2
        have hj : j = 1 := by omega
        subst hj
        decide)
    exact h.trans (by rfl)

/-- C10: a raise statement whose exception resolves to a name yields a token
whose value is the builtin object itself when the name is an attribute of
`builtins` (for exception names, the class) and the bare name string
otherwise; the stub generator's conversion accepts both shapes, mapping a
class to its name and a string to itself. -/
theorem c10_raise_token_value_shape (env : Env) (fuel : Nat)
    (stubs : Option StubsManagerM) (dive : Bool) (body : List Node)
    (p : Pos) (exc : Option Node) (n : String) (ccol : Nat)
    (hmem : Node.raiseStmt p exc ∈ preorderList body)
    (hname : raiseNameOf exc = some (n, ccol))
    (hdone : (getExceptions env fuel body dive stubs).2 = Option.none) :
    (⟨tokenValueForName n, Option.none, p.line, ccol⟩ : Token) ∈
      (getExceptions env fuel body dive stubs).1 ∧
    (∀ o, getattrBuiltins n = some o → tokenValueForName n = .obj o) ∧
    (getattrBuiltins n = Option.none → tokenValueForName n = .str n) ∧
    (∀ o : BuiltinObj, o.isType = true → generateStubValue (.obj o) = o.bname) ∧
    (∀ s, generateStubValue (.str s) = s) := by
  refine ⟨?_, ?_, ?_, ?_, ?_⟩
  · have ht : (localStep (Node.raiseStmt p exc)).1 =
        some ⟨tokenValueForName n, Option.none, p.line, ccol⟩ := by
      simp [localStep, hname]
    cases dive with
    | true =>
        simp only [getExceptions, if_pos] at hdone ⊢
        exact mem_getExcListD_of_localStep hmem ht hdone
    | false =>
        simp only [getExceptions, Bool.false_eq_true, if_neg] at hdone ⊢
        exact mem_getExcListND_of_localStep hmem ht
  · intro o ho
    simp [tokenValueForName, ho]
  · intro ho
    simp [tokenValueForName, ho]
  · intro o ho
    simp [generateStubValue, ho]
  · intro s
    rfl

/-- C10 witness: `raise MyCustomError` carries the bare string, and the stub
generator's conversion leaves it unchanged. -/
theorem c10_raise_token_value_shape_witness :
    raiseNameOf (some (Node.name ⟨1, 6⟩ "MyCustomError")) = some ("MyCustomError", 6) ∧
    getattrBuiltins "MyCustomError" = Option.none ∧
    (⟨TokenValue.str "MyCustomError", Option.none, 1, 6⟩ : Token) ∈
      (getExceptions envNoInfer 9 raiseBody true Option.none).1 ∧
    generateStubValue (.str "MyCustomError") = "MyCustomError" := by
  have h := c10_raise_token_value_shape envNoInfer 9 Option.none true raiseBody
    ⟨1, 0⟩ (some (Node.name ⟨1, 6⟩ "MyCustomError")) "MyCustomError" 6
    (by simp [raiseBody, preorderList, preorder, preorderOpt])
    (by decide) rfl
  refine ⟨by decide, by decide, ?_, h.2.2.2.2 "MyCustomError"⟩
  have hv : tokenValueForName "MyCustomError" = TokenValue.str "MyCustomError" := by decide
  have := h.1
  rw [hv] at this
  exact this

end Claims

end DealSpec
